import Mathlib

/-!
Shallow embedding of the `trove` crate (src/cache.rs, src/trove_feed.rs,
src/trove.rs) and proofs about its catalog-assembly, caching and
library-reconciliation operations.

Modelling conventions:
- Rust `HashMap` fields are modelled as association lists (`List (κ × α)`).
- Byte buffers (`Vec<u8>`) are modelled as `List Nat`.
- Filesystem directories are modelled as partial maps from file name to
  contents (`String → Option Bytes`); existence of a file is `isSome`.
- A Rust panic (`unwrap`, `assert!`, `expect`, HashMap indexing with a
  missing key) is modelled as the `none` / `.aborted` outcome of the
  operation: the process aborts and nothing is returned to the caller.
- Fallible Rust functions returning `Result<T, E>` are modelled with an
  outcome type that distinguishes a returned `Ok`, a returned `Err`, and
  an abort, so that "returns an error" and "panics" remain distinguishable.
- Fields of the deserialized feed structures that no modelled operation
  reads (`all_access`, `background_image`, `background_color`,
  `humble_original`, `marketing_blurb`, `popularity`, `publishers`,
  `trove_showcase_css`, `developers` are kept; only the opaque
  `serde_json::Value` payloads are flattened to `String`).
-/

/-- Raw byte payloads (Rust `Vec<u8>`). -/
abbrev Bytes := List Nat

/-- Splits a character list at every slash, mirroring how a path string
decomposes into components. -/
def splitSlash : List Char → List (List Char)
  | [] => [[]]
  | c :: cs =>
    let rest := splitSlash cs
    if c = '/' then [] :: rest
    else
      match rest with
      | [] => [[c]]
      | seg :: segs => (c :: seg) :: segs

/-- Rust `Path::file_name`: the final component of the path, or `None` when
the path is empty or terminates in `.` or `..`. -/
def fileName (p : String) : Option String :=
  match (splitSlash p.data).getLast? with
  | none => none
  | some s =>
    if s = [] ∨ s = ['.'] ∨ s = ['.', '.'] then none else some (String.mk s)

/-- trove_feed.rs `Url`: the download locators of one platform entry. -/
structure Url where
  web : String
  bittorrent : Option String
deriving DecidableEq

/-- trove_feed.rs `Download`: one per-platform download descriptor. -/
structure Download where
  machine_name : String
  name : String
  url : Url
  file_size : Nat
  md5 : String
  size : Option String
deriving DecidableEq

/-- trove_feed.rs `CarouselContent`. -/
structure CarouselContent where
  youtube_link : Option (List String)
  thumbnail : List String
  screenshot : List String
deriving DecidableEq

/-- trove_feed.rs `Developer`. -/
structure Developer where
  developer_name : String
  developer_url : Option String
deriving DecidableEq

/-- trove_feed.rs `Product`: one catalog item. The two
`serde_json::Value`-typed fields (`marketing_blurb`, `publishers`) are
modelled as opaque strings; no modelled operation reads them. -/
structure Product where
  all_access : Bool
  background_image : Option String
  background_color : Option String
  carousel_content : CarouselContent
  date_added : Nat
  description_text : String
  developers : Option (List Developer)
  downloads : List (String × Download)
  human_name : String
  humble_original : Option Bool
  image : String
  logo : Option String
  machine_name : String
  marketing_blurb : String
  popularity : Nat
  publishers : String
  trove_showcase_css : Option String
  youtube_link : Option String
deriving DecidableEq

/-- The machine names of a product list, in order. -/
def mnames (l : List Product) : List String := l.map (fun p => p.machine_name)

/-- The human (display) names of a product list, in order. -/
def humanNames (l : List Product) : List String := l.map (fun p => p.human_name)

/-- The `retain`/push loop shared by `TroveFeed::new` (trove_feed.rs:243-257)
and `TroveFeed::load` (trove_feed.rs:315-329): walks a product list keeping a
product only when its `machine_name` has not been seen, and records each kept
name in the running `seen` accumulator (the `products: Vec<String>` of the
source). Returns the kept products and the final accumulator. -/
def retainFirstSeen (seen : List String) : List Product → List Product × List String
  | [] => ([], seen)
  | p :: ps =>
    if p.machine_name ∈ seen then retainFirstSeen seen ps
    else
      let rest := retainFirstSeen (seen ++ [p.machine_name]) ps
      (p :: rest.1, rest.2)

/-- Rust `str::to_lowercase` as used by the `Feed::alphabetically` sort key,
modelled characterwise. -/
def lowerKey (s : String) : List Char := s.data.map Char.toLower

/-- Lexicographic comparison of the lowered sort keys. -/
def lexLe : List Char → List Char → Bool
  | [], _ => true
  | _ :: _, [] => false
  | a :: as, b :: bs => if a < b then true else if b < a then false else lexLe as bs

/-- One insertion step of the stable sort behind `Feed::alphabetically`
(trove_feed.rs:127-130), keyed by the lowercased `human_name`. -/
def insertByKey (p : Product) : List Product → List Product
  | [] => [p]
  | q :: qs =>
    if lexLe (lowerKey p.human_name) (lowerKey q.human_name) then p :: q :: qs
    else q :: insertByKey p qs

/-- `Feed::alphabetically`: stable sort of the standard product list by
lowercased display name. -/
def alphabetically (l : List Product) : List Product := l.foldr insertByKey []

/-- The parsed feed data as captured at assembly time, before any dedupe:
the concatenated chunk products (`standardProducts`), the `newlyAdded`
list, and the parsed `nextAdditionTime|datetime` expiration timestamp
(modelled directly as a Unix timestamp; the source parses the string with
`NaiveDateTime::parse_from_str` and compares `timestamp()` values). -/
structure RawFeed where
  standard_products : List Product
  newly_added : List Product
  next_addition_time : Int
deriving DecidableEq

/-- `TroveFeed::expired` (trove_feed.rs:264-275): true when the current
wall-clock timestamp is strictly past the feed's next-addition timestamp. -/
def RawFeed.expired (raw : RawFeed) (now : Int) : Bool :=
  now > raw.next_addition_time

/-- The dedupe-and-merge pipeline shared by `TroveFeed::new`
(trove_feed.rs:241-258) and `TroveFeed::load` (trove_feed.rs:314-330):
first-seen-wins dedupe of the standard list by `machine_name`, then append
each newly-added product whose `machine_name` is still unseen, then the
alphabetical sort. -/
def assembleProducts (std newly : List Product) : List Product :=
  let dedupStd := retainFirstSeen [] std
  let dedupNew := retainFirstSeen dedupStd.2 newly
  alphabetically (dedupStd.1 ++ dedupNew.1)

/-- `TroveFeed`: the captured serialized feed text (`json`, modelled by the
parsed `RawFeed` it serializes — serde round-tripping is assumed faithful)
plus the processed `feed.standard_products` list. -/
structure TroveFeed where
  json : RawFeed
  standard_products : List Product
deriving DecidableEq

/-- The non-expired branch of `TroveFeed::new` (trove_feed.rs:228-262):
capture the raw serialized feed, then dedupe, merge the newly-added list
and sort. -/
def TroveFeed.assemble (raw : RawFeed) : TroveFeed :=
  { json := raw
    standard_products := assembleProducts raw.standard_products raw.newly_added }

/-- `TroveFeed::save` (trove_feed.rs:334-338): writes the exact text captured
at assembly time; the written file is modelled by the raw feed that text
serializes. -/
def TroveFeed.save (tf : TroveFeed) : RawFeed := tf.json

/-- `TroveFeed::load` (trove_feed.rs:309-332): parse the saved text, then
re-apply the same first-seen-wins dedupe, newly-added merge and sort as
assembly. -/
def TroveFeed.load (saved : RawFeed) : TroveFeed :=
  { json := saved
    standard_products := assembleProducts saved.standard_products saved.newly_added }

/-- `TroveFeed::new` (trove_feed.rs:228-262) with its self-recursion made
explicit: `fetchAttempt n` is the raw feed obtained on the n-th assembly
attempt (after n invalidations of the root document and all chunks), `now`
the wall-clock timestamp, and `fuel` an auxiliary bound on the recursion
depth used to make the definition total. The source recurses with no such
bound; `none` means the recursion depth exceeded `fuel` without the call
returning anything. -/
def TroveFeed.newFuel (fetchAttempt : Nat → RawFeed) (now : Int) :
    Nat → Nat → Option TroveFeed
  | _, 0 => none
  | attempt, fuel + 1 =>
    let raw := fetchAttempt attempt
    if raw.expired now then TroveFeed.newFuel fetchAttempt now (attempt + 1) fuel
    else some (TroveFeed.assemble raw)

/-- `ProductVec::contains` (trove_feed.rs:97-106): membership in a product
list tested by `human_name` equality (despite the parameter being named
`machine_name` in the trait). -/
def containsHumanName (products : List Product) (humanName : String) : Bool :=
  products.any (fun p => p.human_name == humanName)

/-- The "Added titles" half of `TroveFeed::diff` (trove_feed.rs:347-353):
display names of the current snapshot's products absent from the older
snapshot, membership tested by `human_name`. -/
def diffAddedTitles (current older : TroveFeed) : List String :=
  (current.standard_products.filter
      (fun p => !containsHumanName older.standard_products p.human_name)).map
    (fun p => p.human_name)

/-- The "Deleted titles" half of `TroveFeed::diff` (trove_feed.rs:355-360):
display names of the older snapshot's products absent from the current
snapshot, membership tested by `human_name`. -/
def diffDeletedTitles (current older : TroveFeed) : List String :=
  (older.standard_products.filter
      (fun p => !containsHumanName current.standard_products p.human_name)).map
    (fun p => p.human_name)

/-- cache.rs `sha256`: the deterministic digest keying a cache entry. The
digest is modelled as the locator itself, which keeps exactly the property
the source relies on: identical locator ⇔ identical key (SHA-256 treated as
injective). -/
def sha256 (url : String) : String := url

/-- The contents of the cache root directory: blob files keyed by digest and
`.url` sidecar files keyed by the same digest. -/
structure CacheFiles where
  blobs : String → Option Bytes
  sidecars : String → Option String

/-- Outcome of the underlying `reqwest::get` + `read_to_end` interaction:
the fetched bytes, a transport-level failure, a non-success HTTP status, or
an I/O failure while reading the response body. -/
inductive FetchResult where
  | ok (bytes : Bytes)
  | transportFailure
  | badStatus
  | readFailure
deriving DecidableEq

/-- The environment of one `Cache::retrieve` call: what the network returns
for each URL and whether writing each cache file succeeds. -/
structure FetchEnv where
  fetch : String → FetchResult
  writeOk : String → Bool

/-- What a `Cache::retrieve` call does from the caller's point of view:
return bytes (`Ok`), return an I/O error (`Err`), or abort the process
(`unwrap`/`assert!` panic). -/
inductive RetrieveOutcome where
  | ok (bytes : Bytes)
  | ioError
  | aborted
deriving DecidableEq

/-- `Cache::retrieve` (cache.rs:40-55). If a blob for the locator's digest
exists it is returned with no fetch. Otherwise the URL is fetched:
`reqwest::get(url).unwrap()` aborts on transport failure and
`assert!(resp.status().is_success())` aborts on a bad status; a body-read
failure and any file-write failure are returned as I/O errors; on success
the blob and the `.url` sidecar are written and the bytes returned. The
third component counts underlying network fetches performed by the call. -/
def Cache.retrieve (env : FetchEnv) (files : CacheFiles) (url : String) :
    RetrieveOutcome × CacheFiles × Nat :=
  let hash := sha256 url
  match files.blobs hash with
  | some b => (.ok b, files, 0)
  | none =>
    match env.fetch url with
    | .transportFailure => (.aborted, files, 1)
    | .badStatus => (.aborted, files, 1)
    | .readFailure => (.ioError, files, 1)
    | .ok bytes =>
      if env.writeOk hash then
        let files1 : CacheFiles :=
          { files with blobs := fun k => if k = hash then some bytes else files.blobs k }
        if env.writeOk (hash ++ (".url")) then
          (.ok bytes,
            { files1 with
                sidecars := fun k => if k = hash then some url else files1.sidecars k },
            1)
        else (.ioError, files1, 1)
      else (.ioError, files, 1)

/-- trove.rs `TroveGame`: one persistent library record. -/
structure TroveGame where
  machine_name : String
  human_name : String
  description : String
  date_added : Nat
  downloaded : Bool
  installed : Bool
  executable : String
  download_urls : List (String × String)
  downloads : List (String × String)
  logo : Option String
  image : String
  screenshots : List String
  thumbnails : List String
  trailer : Option String
  last_seen_on : String
  removed_from_trove : Bool
deriving DecidableEq

/-- `impl From<&Product> for TroveGame` (trove.rs:35-69). Indexing
`p.downloads["windows"]` aborts when the product has no windows download,
and `PathBuf::from(u).file_name().unwrap()` aborts when the download URL
has no final path component; both aborts are `none`. -/
def TroveGame.fromProduct (p : Product) : Option TroveGame :=
  match p.downloads.lookup ("windows") with
  | none => none
  | some d =>
    match fileName d.url.web with
    | none => none
    | some installerName =>
      some
        { machine_name := p.machine_name
          human_name := p.human_name
          description := p.description_text
          date_added := p.date_added
          downloaded := false
          installed := false
          executable := ""
          download_urls := [(("windows"), d.url.web)]
          downloads := [(("windows"), installerName)]
          logo := p.logo
          image := p.image
          screenshots := p.carousel_content.screenshot
          thumbnails := p.carousel_content.thumbnail
          trailer := p.youtube_link
          last_seen_on := ""
          removed_from_trove := false }

/-- trove.rs `Trove`: the persistent library. Directory paths are plain
strings. -/
structure Trove where
  downloads : String
  root : String
  number_downloaded : Nat
  total : Nat
  games : List TroveGame
deriving DecidableEq

/-- What `Trove::new` does from the caller's point of view: return the
library (`Ok`), return an `Err` (the signature allows it but the body never
constructs one), or abort on a failed `assert!`. -/
inductive TroveNewResult where
  | ok (trove : Trove)
  | err
  | aborted
deriving DecidableEq

/-- `Trove::new` (trove.rs:96-107): builds the empty library, then
`assert!(trove.root.exists())` and `assert!(trove.downloads.exists())`;
a missing directory aborts the process. The two booleans model the
existence checks on the two directories. -/
def Trove.new (rootExists downloadsExists : Bool) (root downloads : String) :
    TroveNewResult :=
  let trove : Trove :=
    { downloads := downloads, root := root
      number_downloaded := 0, total := 0, games := [] }
  if rootExists then
    if downloadsExists then .ok trove else .aborted
  else .aborted

/-- A `for` loop that converts every element with `f`, aborting the whole
operation (Rust panic) as soon as one conversion aborts. -/
def mapOrAbort (f : α → Option β) : List α → Option (List β)
  | [] => some []
  | a :: as =>
    match f a with
    | none => none
    | some b => (mapOrAbort f as).map (fun bs => b :: bs)

/-- `Trove::add_games` (trove.rs:109-113): pushes one converted record per
product of the feed onto `games`, unconditionally. -/
def Trove.add_games (t : Trove) (feed : TroveFeed) : Option Trove :=
  (mapOrAbort TroveGame.fromProduct feed.standard_products).map
    (fun gs => { t with games := t.games ++ gs })

/-- `Trove::update_download_status` (trove.rs:115-130): for every record,
look up the hardcoded platform key and recompute `downloaded` from the
existence of `root/<expected filename>` (modelled by the `rootHas`
predicate on the expected filename); then recompute the aggregate counts.
The `game.downloads["windows"]` HashMap indexing aborts when the key is
missing. -/
def Trove.update_download_status (rootHas : String → Bool) (t : Trove) :
    Option Trove :=
  (mapOrAbort
      (fun g =>
        (g.downloads.lookup ("windows")).map
          (fun installer => { g with downloaded := rootHas installer }))
      t.games).map
    (fun games =>
      { t with
          games := games
          number_downloaded := (games.filter (fun g => g.downloaded)).length
          total := games.length })

/-- `Trove::stray_downloads` (trove.rs:189-207): asserts the downloads
directory exists (abort otherwise), then for every record takes
`game.downloads["windows"]` (abort when missing), its
`file_name().unwrap()` (abort when absent), and keeps the names whose file
is present in the downloads directory (`dlHas`). -/
def Trove.stray_downloads (dlHas : String → Bool) (dirExists : Bool)
    (t : Trove) : Option (List String) :=
  if dirExists then
    (mapOrAbort (fun g => (g.downloads.lookup ("windows")).bind fileName)
        t.games).map
      (fun installers => installers.filter dlHas)
  else none

/-- The two directories `Trove::move_downloads` mutates: the root store and
the scratch downloads directory, each a map from file name to contents. -/
structure DiskState where
  root : String → Option Bytes
  dl : String → Option Bytes

/-- Failure environment for `Trove::move_downloads`: whether `fs::copy` and
`fs::remove_file` succeed for each file name (given the source exists). -/
structure MoveEnv where
  copySucceeds : String → Bool
  removeSucceeds : String → Bool

/-- The body of the `filter_map` in `Trove::move_downloads`
(trove.rs:212-240) for one stray file: skip (reporting the file as
unmoved) when the destination already exists; otherwise copy, reporting
unmoved on copy failure (including a missing source), and delete the
source only after a successful copy, reporting unmoved when the delete
fails. `some f` is the unmoved report, `none` means moved. -/
def moveOne (env : MoveEnv) (st : DiskState) (f : String) :
    DiskState × Option String :=
  if (st.root f).isSome then (st, some f)
  else
    match st.dl f with
    | none => (st, some f)
    | some b =>
      if env.copySucceeds f then
        let st1 : DiskState :=
          { st with root := fun k => if k = f then some b else st.root k }
        if env.removeSucceeds f then
          ({ st1 with dl := fun k => if k = f then none else st1.dl k }, none)
        else (st1, some f)
      else (st, some f)

/-- The `filter_map` fold of `Trove::move_downloads` (trove.rs:209-243)
over the stray list: processes each file in order against the evolving
disk state and collects the unmoved reports. -/
def moveFiles (env : MoveEnv) (st : DiskState) : List String → DiskState × List String
  | [] => (st, [])
  | f :: fs =>
    let step := moveOne env st f
    let rest := moveFiles env step.1 fs
    (rest.1,
      match step.2 with
      | some x => x :: rest.2
      | none => rest.2)

/-- `Trove::move_downloads` (trove.rs:209-243): computes the stray list,
then runs the per-file move loop; aborts when `stray_downloads` aborts. -/
def Trove.move_downloads (env : MoveEnv) (st : DiskState) (dirExists : Bool)
    (t : Trove) : Option (DiskState × List String) :=
  (t.stray_downloads (fun n => (st.dl n).isSome) dirExists).map
    (fun strays => moveFiles env st strays)

/-- A download descriptor with only the web locator populated; the other
fields take neutral values. Used to build concrete test feeds. -/
def sampleDownload (web : String) : Download :=
  { machine_name := "", name := "", url := { web := web, bittorrent := none },
    file_size := 0, md5 := "", size := none }

/-- A product with the identifying fields populated and neutral values
elsewhere. Used to build concrete test feeds. -/
def sampleProduct (machineName humanName : String)
    (dls : List (String × Download)) : Product :=
  { all_access := false, background_image := none, background_color := none,
    carousel_content := { youtube_link := none, thumbnail := [], screenshot := [] },
    date_added := 0, description_text := "", developers := none,
    downloads := dls, human_name := humanName, humble_original := none,
    image := "", logo := none, machine_name := machineName,
    marketing_blurb := "", popularity := 0, publishers := "",
    trove_showcase_css := none, youtube_link := none }

/-- A product carrying a windows download. -/
def productA : Product :=
  sampleProduct ("game_a") ("Game A")
    [(("windows"), sampleDownload ("http://h/a.zip"))]

/-- A one-product raw feed. -/
def rawA : RawFeed :=
  { standard_products := [productA], newly_added := [], next_addition_time := 0 }

/-- The assembled one-product snapshot. -/
def feedA : TroveFeed := TroveFeed.assemble rawA

/-- The record `TroveGame::from` derives from `productA`. -/
def gameA : TroveGame :=
  { machine_name := "game_a", human_name := "Game A", description := "",
    date_added := 0, downloaded := false, installed := false, executable := "",
    download_urls := [(("windows"), ("http://h/a.zip"))],
    downloads := [(("windows"), ("a.zip"))],
    logo := none, image := "", screenshots := [], thumbnails := [],
    trailer := none, last_seen_on := "", removed_from_trove := false }

/-- An empty library over existing directories. -/
def trove0 : Trove :=
  { downloads := "d", root := "r", number_downloaded := 0, total := 0, games := [] }

/-- An empty raw feed whose next-addition timestamp lies in the past for any
positive wall-clock timestamp. -/
def staleRawFeed : RawFeed :=
  { standard_products := [], newly_added := [], next_addition_time := 0 }

/-- The assembled empty snapshot. -/
def feedEmpty : TroveFeed := TroveFeed.assemble staleRawFeed

/-- A network that fails at the transport level for every URL. -/
def envTransportFailure : FetchEnv :=
  { fetch := fun _ => FetchResult.transportFailure, writeOk := fun _ => true }

/-- A network that returns the bytes [1, 2, 3] for every URL. -/
def envFetchOk : FetchEnv :=
  { fetch := fun _ => FetchResult.ok [1, 2, 3], writeOk := fun _ => true }

/-- A cache directory with no entries. -/
def emptyCacheFiles : CacheFiles :=
  { blobs := fun _ => none, sidecars := fun _ => none }

theorem mapOrAbort_length (f : α → Option β) :
    ∀ l bs, mapOrAbort f l = some bs → bs.length = l.length := by
  intro l
  induction l with
  | nil => intro bs h; simp [mapOrAbort] at h; simp [← h]
  | cons a as ih =>
    intro bs h
    simp only [mapOrAbort] at h
    cases hfa : f a with
    | none => rw [hfa] at h; simp at h
    | some b =>
      rw [hfa] at h
      cases hrest : mapOrAbort f as with
      | none => rw [hrest] at h; simp at h
      | some bs2 =>
        rw [hrest] at h
        simp at h
        rw [← h]
        simp [ih bs2 hrest]

/-- Claim C1: the spec requires exactly one invalidate-and-retry cycle and a
StaleFeedRace error when the reassembled snapshot is still expired. The
source (trove_feed.rs:236-240) instead recurses into `TroveFeed::new`
unconditionally with no retry counter and defines no such error: on a feed
whose next-addition timestamp stays in the past on every refetch, the
recursion never returns under any depth bound `fuel`, for any starting
attempt — assembly does not terminate, and no error is ever surfaced. -/
theorem trove_feed_new_diverges_on_persistently_stale_feed :
    ∀ fuel attempt : Nat,
      TroveFeed.newFuel (fun _ => staleRawFeed) 1 attempt fuel = none := by
  intro fuel
  induction fuel with
  | zero => intro attempt; rfl
  | succ n ih =>
    intro attempt
    simpa [TroveFeed.newFuel, RawFeed.expired, staleRawFeed] using ih (attempt + 1)

/-- Claim C9 counterexample: with the root directory missing (and the
downloads directory present), `Trove::new` hits `assert!(trove.root.exists())`
and aborts the process; no `FilesystemError` (or any `Err`) is returned to
the caller, contradicting the claim that the failure is surfaced as a
returned error. -/
theorem trove_new_missing_root_aborts :
    Trove.new false true ("r") ("d") = TroveNewResult.aborted
    ∧ TroveNewResult.aborted ≠ TroveNewResult.err := by
  exact ⟨rfl, by decide⟩

/-- Claim C9 (amended): `Trove::new` checks both directories with `assert!`
and panics — aborting the process rather than returning an error — when
either is missing; when both exist it returns the fresh empty library, and
no execution returns an `Err` value. -/
theorem trove_new_ok_iff_directories_exist (rootExists downloadsExists : Bool)
    (root downloads : String) :
    (Trove.new rootExists downloadsExists root downloads
        = TroveNewResult.ok
            { downloads := downloads, root := root
              number_downloaded := 0, total := 0, games := [] }
      ↔ rootExists = true ∧ downloadsExists = true)
    ∧ (Trove.new rootExists downloadsExists root downloads = TroveNewResult.aborted
      ↔ ¬(rootExists = true ∧ downloadsExists = true))
    ∧ Trove.new rootExists downloadsExists root downloads ≠ TroveNewResult.err := by
  cases rootExists <;> cases downloadsExists <;> simp [Trove.new]

/-- Witness for C9's amended theorem at a concrete input: a missing root
directory aborts. -/
theorem trove_new_ok_iff_directories_exist_witness :
    Trove.new false true ("r") ("d") = TroveNewResult.aborted :=
  (trove_new_ok_iff_directories_exist false true ("r") ("d")).2.1.mpr (by decide)

/-- Claim C5 counterexample: on a cold cache entry whose fetch fails at the
transport level, `Cache::retrieve` hits `reqwest::get(url).unwrap()` and
aborts the process; the outcome is not the returned error result the claim
describes. -/
theorem cache_retrieve_aborts_on_transport_failure :
    (Cache.retrieve envTransportFailure emptyCacheFiles ("http://u")).1
        = RetrieveOutcome.aborted
    ∧ RetrieveOutcome.aborted ≠ RetrieveOutcome.ioError := by
  exact ⟨rfl, by decide⟩

/-- Claim C5 (amended): on a cache miss, a transport failure or a
non-success HTTP status makes `Cache::retrieve` panic (`unwrap` /
`assert!`), aborting the process instead of returning an error; a failure
reading the response body, or a failure persisting the blob or the sidecar,
is returned to the caller as an I/O error. -/
theorem cache_retrieve_abort_and_io_error_behavior (env : FetchEnv)
    (files : CacheFiles) (url : String)
    (hmiss : files.blobs (sha256 url) = none) :
    (env.fetch url = FetchResult.transportFailure →
        (Cache.retrieve env files url).1 = RetrieveOutcome.aborted)
    ∧ (env.fetch url = FetchResult.badStatus →
        (Cache.retrieve env files url).1 = RetrieveOutcome.aborted)
    ∧ (env.fetch url = FetchResult.readFailure →
        (Cache.retrieve env files url).1 = RetrieveOutcome.ioError)
    ∧ (∀ b, env.fetch url = FetchResult.ok b →
        env.writeOk (sha256 url) = false →
        (Cache.retrieve env files url).1 = RetrieveOutcome.ioError)
    ∧ (∀ b, env.fetch url = FetchResult.ok b →
        env.writeOk (sha256 url) = true →
        env.writeOk (sha256 url ++ (".url")) = false →
        (Cache.retrieve env files url).1 = RetrieveOutcome.ioError) := by
  refine ⟨?_, ?_, ?_, ?_, ?_⟩
  · intro h; simp [Cache.retrieve, hmiss, h]
  · intro h; simp [Cache.retrieve, hmiss, h]
  · intro h; simp [Cache.retrieve, hmiss, h]
  · intro b h hw; simp [Cache.retrieve, hmiss, h, hw]
  · intro b h hw1 hw2; simp [Cache.retrieve, hmiss, h, hw1, hw2]

/-- Witness for C5's amended theorem at a concrete input: the transport
failure aborts. -/
theorem cache_retrieve_abort_and_io_error_behavior_witness :
    (Cache.retrieve envTransportFailure emptyCacheFiles ("u")).1
      = RetrieveOutcome.aborted :=
  (cache_retrieve_abort_and_io_error_behavior envTransportFailure
    emptyCacheFiles ("u") rfl).1 rfl

/-- Claim C6: starting from a state with no entry for the locator and a
successful fetch and persistence, the first `retrieve` performs exactly one
underlying fetch and returns the fetched bytes; a second `retrieve` on the
resulting state performs zero fetches, returns byte-identical contents
from the persisted blob, and leaves the cache directory unchanged. -/
theorem cache_retrieve_second_call_uses_cache (env : FetchEnv)
    (files : CacheFiles) (url : String) (b : Bytes)
    (hmiss : files.blobs (sha256 url) = none)
    (hfetch : env.fetch url = FetchResult.ok b)
    (hblob : env.writeOk (sha256 url) = true)
    (hside : env.writeOk (sha256 url ++ (".url")) = true) :
    (Cache.retrieve env files url).1 = RetrieveOutcome.ok b
    ∧ (Cache.retrieve env files url).2.2 = 1
    ∧ (Cache.retrieve env (Cache.retrieve env files url).2.1 url).1
        = RetrieveOutcome.ok b
    ∧ (Cache.retrieve env (Cache.retrieve env files url).2.1 url).2.2 = 0
    ∧ (Cache.retrieve env (Cache.retrieve env files url).2.1 url).2.1
        = (Cache.retrieve env files url).2.1 := by
  have hstep : Cache.retrieve env files url
      = (RetrieveOutcome.ok b,
          { blobs := fun k => if k = sha256 url then some b else files.blobs k
            sidecars := fun k => if k = sha256 url then some url else files.sidecars k },
          1) := by
    simp [Cache.retrieve, hmiss, hfetch, hblob, hside]
  refine ⟨by rw [hstep], by rw [hstep], ?_, ?_, ?_⟩ <;>
    · rw [hstep]; simp [Cache.retrieve]

/-- Witness for C6 at a concrete input: a cold cache, a mocked fetch
returning [1, 2, 3]; the first call fetches once, the second call fetches
zero times and returns the same bytes. -/
theorem cache_retrieve_second_call_uses_cache_witness :
    (Cache.retrieve envFetchOk emptyCacheFiles ("u")).1 = RetrieveOutcome.ok [1, 2, 3]
    ∧ (Cache.retrieve envFetchOk emptyCacheFiles ("u")).2.2 = 1
    ∧ (Cache.retrieve envFetchOk
          (Cache.retrieve envFetchOk emptyCacheFiles ("u")).2.1 ("u")).1
        = RetrieveOutcome.ok [1, 2, 3]
    ∧ (Cache.retrieve envFetchOk
          (Cache.retrieve envFetchOk emptyCacheFiles ("u")).2.1 ("u")).2.2 = 0 := by
  obtain ⟨h1, h2, h3, h4, h5⟩ :=
    cache_retrieve_second_call_uses_cache envFetchOk emptyCacheFiles ("u")
      [1, 2, 3] rfl rfl rfl rfl
  exact ⟨h1, h2, h3, h4⟩

/-- Claim C2 counterexample: merging the same one-product snapshot twice
doubles the record collection (from one record to two) and leaves two
records sharing the machine name, so `Trove::add_games` is not an
idempotent merge keyed by `machine_name`. -/
theorem add_games_applied_twice_duplicates_records :
    ((Trove.add_games trove0 feedA).bind
        (fun t => Trove.add_games t feedA)).map
        (fun t => t.games.map (fun g => g.machine_name))
      = some [("game_a"), ("game_a")]
    ∧ (Trove.add_games trove0 feedA).map (fun t => t.games.length) = some 1 := by
  exact ⟨rfl, rfl⟩

/-- Claim C2 (amended): `Trove::add_games` performs no dedupe at all — it
unconditionally appends one converted record per product of the snapshot,
so each application grows the collection by the product count, duplicates
included; it is not idempotent and does not key on `machine_name`. -/
theorem add_games_appends_every_product (t : Trove) (feed : TroveFeed)
    (gs : List TroveGame)
    (hconv : mapOrAbort TroveGame.fromProduct feed.standard_products = some gs) :
    Trove.add_games t feed = some { t with games := t.games ++ gs }
    ∧ ∀ t2, Trove.add_games t feed = some t2 →
        t2.games.length = t.games.length + feed.standard_products.length := by
  constructor
  · simp [Trove.add_games, hconv]
  · intro t2 h2
    simp [Trove.add_games, hconv] at h2
    rw [← h2]
    simp [mapOrAbort_length TroveGame.fromProduct feed.standard_products gs hconv]

/-- Witness for C2's amended theorem at a concrete input: adding the
one-product snapshot to the empty library appends exactly the converted
record. -/
theorem add_games_appends_every_product_witness :
    Trove.add_games trove0 feedA = some { trove0 with games := trove0.games ++ [gameA] } :=
  (add_games_appends_every_product trove0 feedA [gameA] (by decide)).1

/-- Claim C8: `TroveFeed::diff` computes the added titles of `diff(A, B)`
and the removed titles of `diff(B, A)` by the very same formula — display
names of A's products with no `human_name` match in B — so the two lists
are equal, and membership in the added list is exactly display-name
membership in A minus display-name membership in B (machine names play no
role). -/
theorem diff_added_equals_removed_swapped (A B : TroveFeed) :
    diffAddedTitles A B = diffDeletedTitles B A
    ∧ ∀ name, name ∈ diffAddedTitles A B ↔
        (name ∈ humanNames A.standard_products
          ∧ name ∉ humanNames B.standard_products) := by
  constructor
  · rfl
  · intro name
    simp only [diffAddedTitles, humanNames, containsHumanName, List.mem_map,
      List.mem_filter, Bool.not_eq_true', List.any_eq_false, beq_iff_eq]
    constructor
    · rintro ⟨p, ⟨hpA, hnot⟩, rfl⟩
      exact ⟨⟨p, hpA, rfl⟩, fun ⟨q, hqB, hq⟩ => by simpa [hq] using hnot q hqB⟩
    · rintro ⟨⟨p, hpA, rfl⟩, hnot⟩
      exact ⟨p, ⟨hpA, fun q hqB => by
        by_contra hc
        exact hnot ⟨q, hqB, by simpa using hc⟩⟩, rfl⟩

/-- Witness for C8 at concrete inputs: diffing the one-product snapshot
against the empty snapshot reports its title as added, and the two halves
agree after swapping the arguments. -/
theorem diff_added_equals_removed_swapped_witness :
    diffAddedTitles feedA feedEmpty = diffDeletedTitles feedEmpty feedA
    ∧ ("Game A") ∈ diffAddedTitles feedA feedEmpty :=
  ⟨(diff_added_equals_removed_swapped feedA feedEmpty).1,
    ((diff_added_equals_removed_swapped feedA feedEmpty).2 ("Game A")).mpr
      (by decide)⟩

theorem mem_mnames_of_mem {p : Product} {l : List Product} (h : p ∈ l) :
    p.machine_name ∈ mnames l :=
  List.mem_map_of_mem (fun q => q.machine_name) h

theorem retainFirstSeen_append (l2 : List Product) :
    ∀ l1 seen,
      retainFirstSeen seen (l1 ++ l2)
        = ((retainFirstSeen seen l1).1
              ++ (retainFirstSeen (retainFirstSeen seen l1).2 l2).1,
            (retainFirstSeen (retainFirstSeen seen l1).2 l2).2) := by
  intro l1
  induction l1 with
  | nil => intro seen; simp [retainFirstSeen]
  | cons p ps ih =>
    intro seen
    by_cases h : p.machine_name ∈ seen
    · simp only [List.cons_append, retainFirstSeen, h, ite_true]
      exact ih seen
    · simp only [List.cons_append, retainFirstSeen, h, ite_false, List.append_eq]
      rw [ih (seen ++ [p.machine_name])]

theorem retainFirstSeen_nodup_and_fresh (l : List Product) :
    ∀ seen, (mnames (retainFirstSeen seen l).1).Nodup
      ∧ ∀ x ∈ mnames (retainFirstSeen seen l).1, x ∉ seen := by
  induction l with
  | nil => intro seen; simp [retainFirstSeen, mnames]
  | cons p ps ih =>
    intro seen
    by_cases h : p.machine_name ∈ seen
    · simpa [retainFirstSeen, h] using ih seen
    · have ih2 := ih (seen ++ [p.machine_name])
      constructor
      · simp only [retainFirstSeen, h, ite_false, mnames, List.map_cons,
          List.nodup_cons]
        refine ⟨fun hmem => ?_, ih2.1⟩
        have := ih2.2 _ hmem
        simp at this
      · intro x hx
        simp only [retainFirstSeen, h, ite_false, mnames, List.map_cons,
          List.mem_cons] at hx
        rcases hx with rfl | hx2
        · exact h
        · have := ih2.2 _ hx2
          simp at this
          exact this.1

theorem retainFirstSeen_subset (l : List Product) :
    ∀ seen p, p ∈ (retainFirstSeen seen l).1 → p ∈ l := by
  induction l with
  | nil => intro seen p h; simp [retainFirstSeen] at h
  | cons q qs ih =>
    intro seen p h
    by_cases hq : q.machine_name ∈ seen
    · simp only [retainFirstSeen, hq, ite_true] at h
      exact List.mem_cons_of_mem q (ih seen p h)
    · simp only [retainFirstSeen, hq, ite_false, List.mem_cons] at h
      rcases h with rfl | h2
      · exact List.mem_cons_self p qs
      · exact List.mem_cons_of_mem q (ih (seen ++ [q.machine_name]) p h2)

theorem retainFirstSeen_first_wins (l : List Product) :
    ∀ seen p, p ∈ (retainFirstSeen seen l).1 →
      l.find? (fun q => q.machine_name == p.machine_name) = some p := by
  induction l with
  | nil => intro seen p h; simp [retainFirstSeen] at h
  | cons q qs ih =>
    intro seen p h
    by_cases hq : q.machine_name ∈ seen
    · simp only [retainFirstSeen, hq, ite_true] at h
      have hfresh := (retainFirstSeen_nodup_and_fresh qs seen).2 _
        (mem_mnames_of_mem h)
      have hne : (q.machine_name == p.machine_name) = false := by
        simp only [beq_eq_false_iff_ne, ne_eq]
        intro hEq
        exact hfresh (hEq ▸ hq)
      simp only [List.find?_cons, hne]
      exact ih seen p h
    · simp only [retainFirstSeen, hq, ite_false, List.mem_cons] at h
      rcases h with rfl | h2
      · simp [List.find?_cons]
      · have hfresh := (retainFirstSeen_nodup_and_fresh qs
          (seen ++ [q.machine_name])).2 _ (mem_mnames_of_mem h2)
        simp only [List.mem_append, List.mem_singleton, not_or] at hfresh
        have hne : (q.machine_name == p.machine_name) = false := by
          simp only [beq_eq_false_iff_ne, ne_eq]
          intro hEq
          exact hfresh.2 hEq.symm
        simp only [List.find?_cons, hne]
        exact ih (seen ++ [q.machine_name]) p h2

theorem retainFirstSeen_covers (l : List Product) :
    ∀ seen p, p ∈ l →
      p.machine_name ∈ seen ∨ p.machine_name ∈ mnames (retainFirstSeen seen l).1 := by
  induction l with
  | nil => intro seen p h; simp at h
  | cons q qs ih =>
    intro seen p h
    rcases List.mem_cons.mp h with rfl | h2
    · by_cases hq : p.machine_name ∈ seen
      · exact Or.inl hq
      · refine Or.inr ?_
        simp [retainFirstSeen, hq, mnames]
    · by_cases hq : q.machine_name ∈ seen
      · rcases ih seen p h2 with hl | hr
        · exact Or.inl hl
        · refine Or.inr ?_
          simpa [retainFirstSeen, hq] using hr
      · rcases ih (seen ++ [q.machine_name]) p h2 with hl | hr
        · rcases List.mem_append.mp hl with hl2 | hl3
          · exact Or.inl hl2
          · refine Or.inr ?_
            simp only [List.mem_singleton] at hl3
            simp [retainFirstSeen, hq, mnames, hl3]
        · refine Or.inr ?_
          simp only [retainFirstSeen, hq, ite_false, mnames, List.map_cons,
            List.mem_cons]
          exact Or.inr hr

theorem insertByKey_perm (p : Product) :
    ∀ l, (insertByKey p l).Perm (p :: l) := by
  intro l
  induction l with
  | nil => simp [insertByKey]
  | cons q qs ih =>
    simp only [insertByKey]
    by_cases h : lexLe (lowerKey p.human_name) (lowerKey q.human_name) = true
    · simp [h]
    · simp only [h, ite_false]
      exact (ih.cons q).trans (List.Perm.swap p q qs)

theorem alphabetically_perm : ∀ l, (alphabetically l).Perm l := by
  intro l
  induction l with
  | nil => exact List.Perm.refl []
  | cons p ps ih =>
    exact (insertByKey_perm p (alphabetically ps)).trans (ih.cons p)

theorem assembleProducts_eq_sorted_dedup (std newly : List Product) :
    assembleProducts std newly
      = alphabetically (retainFirstSeen [] (std ++ newly)).1 := by
  simp [assembleProducts, retainFirstSeen_append]

theorem assembleProducts_perm_dedup (std newly : List Product) :
    (assembleProducts std newly).Perm (retainFirstSeen [] (std ++ newly)).1 := by
  rw [assembleProducts_eq_sorted_dedup]
  exact alphabetically_perm _

theorem mnames_mem_of_perm {l1 l2 : List Product} (h : l1.Perm l2) (x : String) :
    x ∈ mnames l1 ↔ x ∈ mnames l2 :=
  (h.map (fun p => p.machine_name)).mem_iff

/-- A second product sharing `productA`'s machine name under a different
display name. -/
def productAdup : Product := sampleProduct ("game_a") ("Game A prime") []

/-- A product with a fresh machine name. -/
def productB : Product := sampleProduct ("game_b") ("Game B") []

/-- A raw feed whose chunk data repeats a machine name and whose
newly-added list overlaps both the chunk data and itself. -/
def rawOverlap : RawFeed :=
  { standard_products := [productA, productAdup]
    newly_added := [productAdup, productB, productB]
    next_addition_time := 0 }

/-- Claim C3: for every input feed — any chunk contents and any
newly-added list, overlaps included — the assembled `standard_products`
list (whether produced by `TroveFeed::new`'s pipeline or by
`TroveFeed::load`) contains no two products sharing a `machine_name`; the
product kept for each machine name is the first occurrence of that name in
the concatenation of the standard list and the newly-added list (so a
newly-added entry is appended only when no standard entry shares its
name), and every input machine name is represented. -/
theorem assembled_catalog_machine_names_unique (raw : RawFeed) :
    ((mnames (TroveFeed.assemble raw).standard_products).Nodup
      ∧ (mnames (TroveFeed.load raw).standard_products).Nodup)
    ∧ (∀ p, p ∈ (TroveFeed.assemble raw).standard_products →
        (raw.standard_products ++ raw.newly_added).find?
          (fun q => q.machine_name == p.machine_name) = some p)
    ∧ (∀ p, p ∈ raw.standard_products ++ raw.newly_added →
        p.machine_name ∈ mnames (TroveFeed.assemble raw).standard_products) := by
  have hperm : (assembleProducts raw.standard_products raw.newly_added).Perm
      (retainFirstSeen [] (raw.standard_products ++ raw.newly_added)).1 :=
    assembleProducts_perm_dedup raw.standard_products raw.newly_added
  have hnodup : (mnames (assembleProducts raw.standard_products raw.newly_added)).Nodup := by
    have h1 := (retainFirstSeen_nodup_and_fresh
      (raw.standard_products ++ raw.newly_added) []).1
    simp only [mnames] at h1 ⊢
    exact (hperm.map (fun p => p.machine_name)).symm.nodup h1
  refine ⟨⟨hnodup, hnodup⟩, ?_, ?_⟩
  · intro p hp
    exact retainFirstSeen_first_wins (raw.standard_products ++ raw.newly_added)
      [] p (hperm.mem_iff.mp hp)
  · intro p hp
    rcases retainFirstSeen_covers (raw.standard_products ++ raw.newly_added)
        [] p hp with hl | hr
    · simp at hl
    · exact (mnames_mem_of_perm hperm p.machine_name).mpr hr

/-- Witness for C3 at a concrete overlapping feed: the assembled names are
unique, the kept product for the repeated name is the first occurrence,
and the newly-added-only name is represented. -/
theorem assembled_catalog_machine_names_unique_witness :
    (mnames (TroveFeed.assemble rawOverlap).standard_products).Nodup
    ∧ (rawOverlap.standard_products ++ rawOverlap.newly_added).find?
        (fun q => q.machine_name == productA.machine_name) = some productA
    ∧ productB.machine_name ∈ mnames (TroveFeed.assemble rawOverlap).standard_products :=
  ⟨(assembled_catalog_machine_names_unique rawOverlap).1.1,
    (assembled_catalog_machine_names_unique rawOverlap).2.1 productA (by decide),
    (assembled_catalog_machine_names_unique rawOverlap).2.2 productB (by decide)⟩

/-- Claim C7: saving an assembled snapshot writes the exact captured text
(the raw pre-dedupe feed), and loading that file re-applies the dedupe,
newly-added merge and sort, reproducing exactly the in-memory snapshot —
in particular the same `machine_name`s, which are precisely the machine
names occurring in the raw feed's standard and newly-added lists. -/
theorem save_load_roundtrip_machine_names (raw : RawFeed) :
    TroveFeed.load (TroveFeed.save (TroveFeed.assemble raw)) = TroveFeed.assemble raw
    ∧ ∀ n,
        n ∈ mnames (TroveFeed.load (TroveFeed.save (TroveFeed.assemble raw))).standard_products
          ↔ n ∈ mnames (raw.standard_products ++ raw.newly_added) := by
  have hperm : (assembleProducts raw.standard_products raw.newly_added).Perm
      (retainFirstSeen [] (raw.standard_products ++ raw.newly_added)).1 :=
    assembleProducts_perm_dedup raw.standard_products raw.newly_added
  refine ⟨rfl, fun n => ⟨?_, ?_⟩⟩
  · intro hn
    have hn2 : n ∈ mnames (retainFirstSeen []
        (raw.standard_products ++ raw.newly_added)).1 :=
      (mnames_mem_of_perm hperm n).mp hn
    simp only [mnames, List.mem_map] at hn2 ⊢
    obtain ⟨p, hp, rfl⟩ := hn2
    exact ⟨p, retainFirstSeen_subset _ [] p hp, rfl⟩
  · intro hn
    simp only [mnames, List.mem_map] at hn
    obtain ⟨p, hp, rfl⟩ := hn
    rcases retainFirstSeen_covers (raw.standard_products ++ raw.newly_added)
        [] p hp with hl | hr
    · simp at hl
    · exact (mnames_mem_of_perm hperm p.machine_name).mpr hr

/-- Witness for C7 at the concrete overlapping feed: the round trip is the
identity, and the repeated name is reported present. -/
theorem save_load_roundtrip_machine_names_witness :
    TroveFeed.load (TroveFeed.save (TroveFeed.assemble rawOverlap))
        = TroveFeed.assemble rawOverlap
    ∧ (("game_b") ∈ mnames (TroveFeed.load
          (TroveFeed.save (TroveFeed.assemble rawOverlap))).standard_products) :=
  ⟨(save_load_roundtrip_machine_names rawOverlap).1,
    ((save_load_roundtrip_machine_names rawOverlap).2 ("game_b")).mpr (by decide)⟩

theorem mapOrAbort_none_of_mem (f : α → Option β) :
    ∀ l a, a ∈ l → f a = none → mapOrAbort f l = none := by
  intro l
  induction l with
  | nil => intro a ha; simp at ha
  | cons x xs ih =>
    intro a ha hfa
    rcases List.mem_cons.mp ha with rfl | hmem
    · simp [mapOrAbort, hfa]
    · cases hfx : f x with
      | none => simp [mapOrAbort, hfx]
      | some b => simp [mapOrAbort, hfx, ih a hmem hfa]

theorem mapOrAbort_isSome_of_forall (f : α → Option β) :
    ∀ l, (∀ a ∈ l, (f a).isSome) → (mapOrAbort f l).isSome := by
  intro l
  induction l with
  | nil => intro _; simp [mapOrAbort]
  | cons x xs ih =>
    intro h
    have hx := h x (List.mem_cons_self x xs)
    obtain ⟨b, hb⟩ := Option.isSome_iff_exists.mp hx
    have hrest := ih (fun a ha => h a (List.mem_cons_of_mem x ha))
    obtain ⟨bs, hbs⟩ := Option.isSome_iff_exists.mp hrest
    simp [mapOrAbort, hb, hbs]

/-- A record with no windows download entry. -/
def gameNoWin : TroveGame := { gameA with downloads := [] }

/-- A library holding only a record with no windows entry. -/
def troveNoWin : Trove := { trove0 with games := [gameNoWin] }

/-- A library holding only the well-formed record `gameA`. -/
def troveWithA : Trove := { trove0 with games := [gameA] }

/-- Claim C10: `Trove::update_download_status` and `Trove::stray_downloads`
index every record's downloads map with the hardcoded key "windows" (and
unwrap the path's file name), so one record lacking a windows entry makes
either public operation abort (panic) instead of returning or skipping;
conversely both are total whenever every record carries a windows entry
(with a resolvable file name, for `stray_downloads`, whose directory
assertion also holds). -/
theorem windows_key_required_for_status_and_strays
    (rootHas dlHas : String → Bool) (t : Trove) :
    (∀ g, g ∈ t.games → g.downloads.lookup ("windows") = none →
        Trove.update_download_status rootHas t = none
        ∧ ∀ dirExists, Trove.stray_downloads dlHas dirExists t = none)
    ∧ ((∀ g, g ∈ t.games → (g.downloads.lookup ("windows")).isSome) →
        (Trove.update_download_status rootHas t).isSome)
    ∧ ((∀ g, g ∈ t.games → ∃ p, g.downloads.lookup ("windows") = some p
          ∧ (fileName p).isSome) →
        (Trove.stray_downloads dlHas true t).isSome) := by
  refine ⟨?_, ?_, ?_⟩
  · intro g hg hnone
    constructor
    · have habort : mapOrAbort
          (fun g =>
            (g.downloads.lookup ("windows")).map
              (fun installer => { g with downloaded := rootHas installer }))
          t.games = none :=
        mapOrAbort_none_of_mem _ t.games g hg (by simp [hnone])
      simp [Trove.update_download_status, habort]
    · intro dirExists
      cases dirExists with
      | false => rfl
      | true =>
        have habort : mapOrAbort
            (fun g => (g.downloads.lookup ("windows")).bind fileName)
            t.games = none :=
          mapOrAbort_none_of_mem _ t.games g hg (by simp [hnone])
        simp [Trove.stray_downloads, habort]
  · intro hall
    have hsome := mapOrAbort_isSome_of_forall
      (fun g =>
        (g.downloads.lookup ("windows")).map
          (fun installer => { g with downloaded := rootHas installer }))
      t.games
      (fun g hg => by
        obtain ⟨p, hp⟩ := Option.isSome_iff_exists.mp (hall g hg)
        simp [hp])
    obtain ⟨games, hgames⟩ := Option.isSome_iff_exists.mp hsome
    simp [Trove.update_download_status, hgames]
  · intro hall
    have hsome := mapOrAbort_isSome_of_forall
      (fun g => (g.downloads.lookup ("windows")).bind fileName)
      t.games
      (fun g hg => by
        obtain ⟨p, hp, hfn⟩ := hall g hg
        simpa [hp] using hfn)
    obtain ⟨installers, hinst⟩ := Option.isSome_iff_exists.mp hsome
    simp [Trove.stray_downloads, hinst]

/-- Witness for C10 at concrete libraries: the record lacking a windows
entry aborts both operations; the well-formed record keeps them total. -/
theorem windows_key_required_for_status_and_strays_witness :
    Trove.update_download_status (fun _ => false) troveNoWin = none
    ∧ Trove.stray_downloads (fun _ => false) true troveNoWin = none
    ∧ (Trove.update_download_status (fun _ => false) troveWithA).isSome
    ∧ (Trove.stray_downloads (fun _ => false) true troveWithA).isSome := by
  have h1 := (windows_key_required_for_status_and_strays
    (fun _ => false) (fun _ => false) troveNoWin).1 gameNoWin (by decide) (by decide)
  have h2 := (windows_key_required_for_status_and_strays
    (fun _ => false) (fun _ => false) troveWithA).2.1 (by decide)
  have h3 := (windows_key_required_for_status_and_strays
    (fun _ => false) (fun _ => false) troveWithA).2.2 (by decide)
  exact ⟨h1.1, h1.2 true, h2, h3⟩

theorem moveOne_cases (env : MoveEnv) (st : DiskState) (f : String) :
    moveOne env st f = (st, some f)
    ∨ (∃ b, st.root f = none ∧ st.dl f = some b ∧ env.copySucceeds f = true
        ∧ ((env.removeSucceeds f = true
              ∧ moveOne env st f
                = ({ root := fun k => if k = f then some b else st.root k
                     dl := fun k => if k = f then none else st.dl k },
                    none))
          ∨ (env.removeSucceeds f = false
              ∧ moveOne env st f
                = ({ st with
                      root := fun k => if k = f then some b else st.root k },
                    some f)))) := by
  cases hroot : st.root f with
  | some c => exact Or.inl (by simp [moveOne, hroot])
  | none =>
    cases hdl : st.dl f with
    | none => exact Or.inl (by simp [moveOne, hroot, hdl])
    | some b =>
      by_cases hcp : env.copySucceeds f
      · refine Or.inr ⟨b, rfl, rfl, hcp, ?_⟩
        by_cases hrm : env.removeSucceeds f
        · exact Or.inl ⟨hrm, by simp [moveOne, hroot, hdl, hcp, hrm]⟩
        · refine Or.inr ⟨by simpa using hrm, ?_⟩
          simp [moveOne, hroot, hdl, hcp, hrm]
      · refine Or.inl ?_
        simp [moveOne, hroot, hdl, hcp]

theorem moveFiles_root_stable (env : MoveEnv) :
    ∀ strays st k b, st.root k = some b →
      (moveFiles env st strays).1.root k = some b := by
  intro strays
  induction strays with
  | nil => intro st k b h; simpa [moveFiles] using h
  | cons g fs ih =>
    intro st k b h
    rcases moveOne_cases env st g with hc | ⟨c, hroot, hdl, hcp, hrest⟩
    · simp only [moveFiles, hc]
      exact ih st k b h
    · have hkg : k ≠ g := by
        intro hEq
        rw [hEq, hroot] at h
        exact Option.noConfusion h
      rcases hrest with ⟨hrm, hstep⟩ | ⟨hrm, hstep⟩
      · simp only [moveFiles, hstep]
        exact ih _ k b (by simp [hkg, h])
      · simp only [moveFiles, hstep]
        exact ih _ k b (by simp [hkg, h])

theorem moveFiles_dl_none_stable (env : MoveEnv) :
    ∀ strays st k, st.dl k = none →
      (moveFiles env st strays).1.dl k = none := by
  intro strays
  induction strays with
  | nil => intro st k h; simpa [moveFiles] using h
  | cons g fs ih =>
    intro st k h
    rcases moveOne_cases env st g with hc | ⟨c, hroot, hdl, hcp, hrest⟩
    · simp only [moveFiles, hc]
      exact ih st k h
    · rcases hrest with ⟨hrm, hstep⟩ | ⟨hrm, hstep⟩
      · simp only [moveFiles, hstep]
        refine ih _ k ?_
        by_cases hkg : k = g
        · simp [hkg]
        · simp [hkg, h]
      · simp only [moveFiles, hstep]
        exact ih _ k h

theorem moveFiles_deleted_implies_copied (env : MoveEnv) :
    ∀ strays st k b, st.dl k = some b →
      (moveFiles env st strays).1.dl k = none →
      (moveFiles env st strays).1.root k = some b := by
  intro strays
  induction strays with
  | nil =>
    intro st k b h hnone
    simp only [moveFiles] at hnone
    rw [h] at hnone
    exact Option.noConfusion hnone
  | cons g fs ih =>
    intro st k b h hnone
    rcases moveOne_cases env st g with hc | ⟨c, hroot, hdl, hcp, hrest⟩
    · simp only [moveFiles, hc] at hnone ⊢
      exact ih st k b h hnone
    · rcases hrest with ⟨hrm, hstep⟩ | ⟨hrm, hstep⟩
      · by_cases hkg : k = g
        · subst hkg
          have hbc : b = c := by
            rw [h] at hdl
            exact Option.some_inj.mp hdl
          simp only [moveFiles, hstep]
          exact moveFiles_root_stable env fs _ k b (by simp [hbc])
        · simp only [moveFiles, hstep] at hnone ⊢
          exact ih _ k b (by simp [hkg, h]) hnone
      · simp only [moveFiles, hstep] at hnone ⊢
        exact ih _ k b (by simp [h]) hnone

theorem moveFiles_existing_dest_reported (env : MoveEnv) :
    ∀ strays st f, f ∈ strays → (st.root f).isSome →
      f ∈ (moveFiles env st strays).2 := by
  intro strays
  induction strays with
  | nil => intro st f h; simp at h
  | cons g fs ih =>
    intro st f hf hroot
    by_cases hfg : f = g
    · subst hfg
      rcases moveOne_cases env st f with hc | ⟨c, hroot2, hdl, hcp, hrest⟩
      · simp only [moveFiles, hc]
        exact List.mem_cons_self f _
      · rw [hroot2] at hroot
        simp at hroot
    · have hf2 : f ∈ fs := (List.mem_cons.mp hf).resolve_left hfg
      rcases moveOne_cases env st g with hc | ⟨c, hroot2, hdl, hcp, hrest⟩
      · simp only [moveFiles, hc]
        exact List.mem_cons_of_mem g (ih st f hf2 hroot)
      · rcases hrest with ⟨hrm, hstep⟩ | ⟨hrm, hstep⟩
        · simp only [moveFiles, hstep]
          exact ih _ f hf2 (by simp [hfg, hroot])
        · simp only [moveFiles, hstep]
          exact List.mem_cons_of_mem g (ih _ f hf2 (by simp [hfg, hroot]))

theorem moveFiles_copy_fail_untouched (env : MoveEnv) :
    ∀ strays st f, env.copySucceeds f = false →
      (moveFiles env st strays).1.dl f = st.dl f
      ∧ (moveFiles env st strays).1.root f = st.root f := by
  intro strays
  induction strays with
  | nil => intro st f _; exact ⟨rfl, rfl⟩
  | cons g fs ih =>
    intro st f hf
    rcases moveOne_cases env st g with hc | ⟨c, hroot, hdl, hcp, hrest⟩
    · simp only [moveFiles, hc]
      exact ih st f hf
    · have hfg : f ≠ g := by
        intro hEq
        rw [hEq, hcp] at hf
        exact Bool.noConfusion hf
      rcases hrest with ⟨hrm, hstep⟩ | ⟨hrm, hstep⟩
      · simp only [moveFiles, hstep]
        have := ih ({ root := fun k => if k = g then some c else st.root k
                      dl := fun k => if k = g then none else st.dl k }) f hf
        simpa [hfg] using this
      · simp only [moveFiles, hstep]
        have := ih ({ st with
            root := fun k => if k = g then some c else st.root k }) f hf
        simpa [hfg] using this

theorem moveFiles_copy_fail_reported (env : MoveEnv) :
    ∀ strays st f, f ∈ strays → env.copySucceeds f = false → st.root f = none →
      f ∈ (moveFiles env st strays).2 := by
  intro strays
  induction strays with
  | nil => intro st f h; simp at h
  | cons g fs ih =>
    intro st f hf hcpf hrootf
    by_cases hfg : f = g
    · subst hfg
      rcases moveOne_cases env st f with hc | ⟨c, hroot2, hdl, hcp, hrest⟩
      · simp only [moveFiles, hc]
        exact List.mem_cons_self f _
      · rw [hcp] at hcpf
        exact Bool.noConfusion hcpf
    · have hf2 : f ∈ fs := (List.mem_cons.mp hf).resolve_left hfg
      rcases moveOne_cases env st g with hc | ⟨c, hroot2, hdl, hcp, hrest⟩
      · simp only [moveFiles, hc]
        exact List.mem_cons_of_mem g (ih st f hf2 hcpf hrootf)
      · rcases hrest with ⟨hrm, hstep⟩ | ⟨hrm, hstep⟩
        · simp only [moveFiles, hstep]
          exact ih _ f hf2 hcpf (by simp [hfg, hrootf])
        · simp only [moveFiles, hstep]
          exact List.mem_cons_of_mem g (ih _ f hf2 hcpf (by simp [hfg, hrootf]))

theorem moveFiles_unreported_moved (env : MoveEnv) :
    ∀ strays st f, f ∈ strays → f ∉ (moveFiles env st strays).2 →
      (moveFiles env st strays).1.dl f = none
      ∧ (moveFiles env st strays).1.root f = st.dl f := by
  intro strays
  induction strays with
  | nil => intro st f h; simp at h
  | cons g fs ih =>
    intro st f hf hnot
    by_cases hfg : f = g
    · subst hfg
      rcases moveOne_cases env st f with hc | ⟨c, hroot, hdl, hcp, hrest⟩
      · exfalso
        apply hnot
        simp only [moveFiles, hc]
        exact List.mem_cons_self f _
      · rcases hrest with ⟨hrm, hstep⟩ | ⟨hrm, hstep⟩
        · simp only [moveFiles, hstep]
          refine ⟨moveFiles_dl_none_stable env fs _ f (by simp), ?_⟩
          rw [hdl]
          exact moveFiles_root_stable env fs _ f c (by simp)
        · exfalso
          apply hnot
          simp only [moveFiles, hstep]
          exact List.mem_cons_self f _
    · have hf2 : f ∈ fs := (List.mem_cons.mp hf).resolve_left hfg
      rcases moveOne_cases env st g with hc | ⟨c, hroot, hdl, hcp, hrest⟩
      · have hnot2 : f ∉ (moveFiles env st fs).2 := by
          intro hmem
          apply hnot
          simp only [moveFiles, hc]
          exact List.mem_cons_of_mem g hmem
        simp only [moveFiles, hc]
        exact ih st f hf2 hnot2
      · rcases hrest with ⟨hrm, hstep⟩ | ⟨hrm, hstep⟩
        · have hnot2 : f ∉ (moveFiles env
              ({ root := fun k => if k = g then some c else st.root k
                 dl := fun k => if k = g then none else st.dl k }) fs).2 := by
            intro hmem
            apply hnot
            simp only [moveFiles, hstep]
            exact hmem
          have := ih _ f hf2 hnot2
          simp only [moveFiles, hstep]
          simpa [hfg] using this
        · have hnot2 : f ∉ (moveFiles env
              ({ st with
                  root := fun k => if k = g then some c else st.root k }) fs).2 := by
            intro hmem
            apply hnot
            simp only [moveFiles, hstep]
            exact List.mem_cons_of_mem g hmem
          have := ih _ f hf2 hnot2
          simp only [moveFiles, hstep]
          simpa [hfg] using this

theorem moveFiles_unmoved_subset (env : MoveEnv) :
    ∀ strays st x, x ∈ (moveFiles env st strays).2 → x ∈ strays := by
  intro strays
  induction strays with
  | nil => intro st x h; simp [moveFiles] at h
  | cons g fs ih =>
    intro st x hx
    rcases moveOne_cases env st g with hc | ⟨c, hroot, hdl, hcp, hrest⟩
    · simp only [moveFiles, hc] at hx
      rcases List.mem_cons.mp hx with rfl | hx2
      · exact List.mem_cons_self x _
      · exact List.mem_cons_of_mem g (ih _ x hx2)
    · rcases hrest with ⟨hrm, hstep⟩ | ⟨hrm, hstep⟩
      · simp only [moveFiles, hstep] at hx
        exact List.mem_cons_of_mem g (ih _ x hx)
      · simp only [moveFiles, hstep] at hx
        rcases List.mem_cons.mp hx with rfl | hx2
        · exact List.mem_cons_self x _
        · exact List.mem_cons_of_mem g (ih _ x hx2)

/-- A failure-free move environment: every copy and delete succeeds. -/
def moveEnvOk : MoveEnv :=
  { copySucceeds := fun _ => true, removeSucceeds := fun _ => true }

/-- A disk where the root already holds game1.exe and the downloads
directory holds stray copies of game1.exe and game2.exe. -/
def diskScenario : DiskState :=
  { root := fun k => if k = ("game1.exe") then some [7] else none
    dl := fun k =>
      if k = ("game1.exe") then some [8]
      else if k = ("game2.exe") then some [9] else none }

/-- Claim C4: over the per-file loop of `Trove::move_downloads`, for every
starting disk state and stray list: (a) a file already present in root is
never overwritten — every pre-existing root entry survives with identical
bytes; (b) a source file is deleted from the downloads directory only when
its bytes were copied into root; (c) a stray whose destination already
exists is reported unmoved; (d) a stray whose copy fails is reported
unmoved and its source left untouched; (e) a stray that is not reported
was genuinely moved — gone from downloads with its bytes now in root; and
(f) every reported file is one of the strays, so the returned list is
exactly the files that could not be moved. The final conjunct ties the
loop to `Trove::move_downloads` itself. -/
theorem move_downloads_never_overwrites_or_loses (env : MoveEnv)
    (st : DiskState) (strays : List String) :
    (∀ k b, st.root k = some b → (moveFiles env st strays).1.root k = some b)
    ∧ (∀ k b, st.dl k = some b → (moveFiles env st strays).1.dl k = none →
        (moveFiles env st strays).1.root k = some b)
    ∧ (∀ f, f ∈ strays → (st.root f).isSome →
        f ∈ (moveFiles env st strays).2)
    ∧ (∀ f, f ∈ strays → env.copySucceeds f = false → st.root f = none →
        (moveFiles env st strays).1.dl f = st.dl f
          ∧ f ∈ (moveFiles env st strays).2)
    ∧ (∀ f, f ∈ strays → f ∉ (moveFiles env st strays).2 →
        (moveFiles env st strays).1.dl f = none
          ∧ (moveFiles env st strays).1.root f = st.dl f)
    ∧ (∀ x, x ∈ (moveFiles env st strays).2 → x ∈ strays)
    ∧ (∀ t, Trove.stray_downloads (fun n => (st.dl n).isSome) true t
          = some strays →
        Trove.move_downloads env st true t = some (moveFiles env st strays)) :=
  ⟨fun k b h => moveFiles_root_stable env strays st k b h,
    fun k b h hn => moveFiles_deleted_implies_copied env strays st k b h hn,
    fun f hf hr => moveFiles_existing_dest_reported env strays st f hf hr,
    fun f hf hcp hr =>
      ⟨(moveFiles_copy_fail_untouched env strays st f hcp).1,
        moveFiles_copy_fail_reported env strays st f hf hcp hr⟩,
    fun f hf hn => moveFiles_unreported_moved env strays st f hf hn,
    fun x hx => moveFiles_unmoved_subset env strays st x hx,
    fun t ht => by simp [Trove.move_downloads, ht]⟩

/-- Witness for C4 at a concrete disk: game1.exe already exists in root, so
it is reported unmoved and root keeps its original bytes; game2.exe is not
reported, and indeed it was removed from downloads and its bytes landed in
root. -/
theorem move_downloads_never_overwrites_or_loses_witness :
    ("game1.exe") ∈ (moveFiles moveEnvOk diskScenario
        [("game1.exe"), ("game2.exe")]).2
    ∧ (moveFiles moveEnvOk diskScenario
        [("game1.exe"), ("game2.exe")]).1.root ("game1.exe") = some [7]
    ∧ (moveFiles moveEnvOk diskScenario
        [("game1.exe"), ("game2.exe")]).1.dl ("game2.exe") = none
    ∧ (moveFiles moveEnvOk diskScenario
        [("game1.exe"), ("game2.exe")]).1.root ("game2.exe")
        = diskScenario.dl ("game2.exe") := by
  obtain ⟨c1, c2, c3, c4, c5, c6, c7⟩ :=
    move_downloads_never_overwrites_or_loses moveEnvOk diskScenario
      [("game1.exe"), ("game2.exe")]
  refine ⟨c3 ("game1.exe") (by decide) (by decide),
    c1 ("game1.exe") [7] (by decide), ?_, ?_⟩
  · exact (c5 ("game2.exe") (by decide) (by decide)).1
  · exact (c5 ("game2.exe") (by decide) (by decide)).2
